import Mathlib

/-!
# Verification of the network_streampu UDP fragmentation / reassembly engine

Shallow embedding of the C++ sources:
* `src/include/spu_udp_protocol.h`, `src/include/streampu_protocol.h`
  (protocol constants and the 12-byte wire header),
* `src/include/UdpPacketizer.hpp` (`UdpPacketizer::prepare_frame`),
* `src/include/UdpReassembler.hpp` (`UdpReassembler::add_fragment`,
  `UdpReassembler::cleanup_old_frames`),
* `src/include/Source_UDP.hpp` (`Source_UDP::_generate`).

Bytes are modelled as `Nat` (their numeric value is never inspected, except
that zero-fill writes the byte 0).  Machine integers are modelled as `Nat`;
where a narrowing conversion or unsigned wrap in the source can actually
change a value, the reduction is written out explicitly (`% 65536` for the
`uint16_t` field `IncompleteFrame::total_frags`, and the `uint32_t` wrap of
`header.total_frags - 1`).  `std::map<uint32_t, IncompleteFrame>` is modelled
as an association list kept sorted by strictly increasing key, which is the
iteration order of `std::map`; `map.begin()` is the head of the list.
Timestamps (`std::chrono::steady_clock::time_point`) are modelled as
milliseconds since an arbitrary origin, passed into `add_fragment` as an
explicit `now` argument.
-/

namespace NetworkStreampu

/-- `STREAMPU_MAX_PAYLOAD` / `SPU_UDP_MAX_PAYLOAD` (both headers define the
value 1400): maximum payload bytes per UDP datagram. -/
def STREAMPU_MAX_PAYLOAD : Nat := 1400

/-- `STREAMPU_MAX_FRAME_SIZE` / `SPU_UDP_MAX_FRAME_SIZE`:
`4294967295UL * 1400`, the largest frame expressible with a `uint32_t`
`total_frags` field. -/
def STREAMPU_MAX_FRAME_SIZE : Nat := 4294967295 * 1400

/-- `UdpReassembler::MAX_PENDING_FRAMES`. -/
def MAX_PENDING_FRAMES : Nat := 10

/-- `UdpReassembler::FRAME_TIMEOUT_MS`. -/
def FRAME_TIMEOUT_MS : Nat := 1000

/-- The 12-byte wire header (`StreampuHeader` in `streampu_protocol.h`;
`SpuUdpHeader` in `spu_udp_protocol.h` is field-for-field identical).
All three fields are `uint32_t`, so a header read off the wire always has
every field `< 2^32`. -/
structure StreampuHeader where
  frame_id : Nat
  frag_index : Nat
  total_frags : Nat
deriving Repr, DecidableEq

/-- `SpuUdpHeader` (spu_udp_protocol.h) has exactly the fields of
`StreampuHeader` with identical meaning; the packetizer writes one and the
reassembler reads it back from the same 12 bytes. -/
abbrev SpuUdpHeader := StreampuHeader

/-- `UdpReassembler::Result`. -/
structure Result where
  complete : Bool
  data : List Nat
  frame_id : Nat
deriving Repr, DecidableEq

/-- `UdpReassembler::IncompleteFrame`.  The field `total_frags` is declared
`uint16_t` in the source (line 30 of UdpReassembler.hpp) although the wire
header carries a `uint32_t`, so the stored value is the header value reduced
`% 65536` (see `add_fragment`). -/
structure IncompleteFrame where
  buffer : List Nat
  received_mask : List Bool
  received_count : Nat
  total_frags : Nat
  final_data_size : Nat
  last_update : Nat
deriving Repr, DecidableEq

/-- `std::map<uint32_t, IncompleteFrame> pending_frames_`, as an association
list in key order (the order `std::map` iterates in). -/
abbrev PendingTable := List (Nat × IncompleteFrame)

/-- `pending_frames_.find(k)` (as the stored value, `none` when absent). -/
def lookupFrame : PendingTable → Nat → Option IncompleteFrame
  | [], _ => none
  | e :: rest, k => if e.1 = k then some e.2 else lookupFrame rest k

/-- `pending_frames_.insert({k, fr})`: `std::map::insert` keeps the table
sorted by key and does nothing when the key is already present. -/
def insertFrame : PendingTable → Nat → IncompleteFrame → PendingTable
  | [], k, fr => [(k, fr)]
  | e :: rest, k, fr =>
      if k < e.1 then (k, fr) :: e :: rest
      else if k = e.1 then e :: rest
      else e :: insertFrame rest k fr

/-- In-place mutation of the entry found at key `k` (the source mutates
`it->second` through the iterator returned by `find`). -/
def updateFrame (st : PendingTable) (k : Nat) (f : IncompleteFrame → IncompleteFrame) :
    PendingTable :=
  st.map (fun e => if e.1 = k then (e.1, f e.2) else e)

/-- `pending_frames_.erase(it)` for the iterator found at key `k`. -/
def eraseFrame (st : PendingTable) (k : Nat) : PendingTable :=
  st.filter (fun e => e.1 ≠ k)

/-- `UdpReassembler::cleanup_old_frames`, with the clock value `now` made
explicit.  First pass: erase every entry whose age in milliseconds exceeds
`FRAME_TIMEOUT_MS`.  Second step: if the table still holds at least
`MAX_PENDING_FRAMES` entries, `erase(begin())`, i.e. drop the entry with the
smallest key. -/
def cleanup_old_frames (st : PendingTable) (now : Nat) : PendingTable :=
  let kept := st.filter (fun e => decide (now - e.2.last_update ≤ FRAME_TIMEOUT_MS))
  if MAX_PENDING_FRAMES ≤ kept.length then kept.tail else kept

/-- `memcpy(frame.buffer.data() + off, payload, payload_len)` on a buffer
represented as a list (only invoked under the guard
`off + payload_len ≤ buffer.size()`). -/
def writeAt (buf : List Nat) (off : Nat) (xs : List Nat) : List Nat :=
  buf.take off ++ xs ++ buf.drop (off + xs.length)

/-- Line 87: `offset = frag_index * STREAMPU_MAX_PAYLOAD`. -/
def frag_offset (hd : StreampuHeader) : Nat :=
  hd.frag_index * STREAMPU_MAX_PAYLOAD

/-- Lines 86–90: the entry's buffer after the guarded `memcpy` of the
payload at `offset` (skipped when it would overrun the buffer). -/
def written_buffer (fr : IncompleteFrame) (hd : StreampuHeader)
    (payload : List Nat) : List Nat :=
  if frag_offset hd + payload.length ≤ fr.buffer.length
  then writeAt fr.buffer (frag_offset hd) payload
  else fr.buffer

/-- Lines 92–95: `final_data_size` after this fragment — the exact frame
end when this is the last fragment (`frag_index == total_frags - 1`, in
`uint32_t` arithmetic, so `total_frags = 0` wraps to `4294967295`). -/
def new_final_size (fr : IncompleteFrame) (hd : StreampuHeader)
    (payload : List Nat) : Nat :=
  if hd.frag_index =
      (if hd.total_frags = 0 then 4294967295 else hd.total_frags - 1)
  then frag_offset hd + payload.length
  else fr.final_data_size

/-- Lines 81–113 of `add_fragment`: the processing applied to the entry
`frame` for `header.frame_id` after its `last_update` has been refreshed.
Returns the `Result` and the updated entry (`none` when the entry is erased
on completion). -/
def process_touched (fr : IncompleteFrame) (hd : StreampuHeader)
    (payload : List Nat) : Result × Option IncompleteFrame :=
  if fr.total_frags ≤ hd.frag_index then (⟨false, [], hd.frame_id⟩, some fr)
  else if fr.received_mask.getD hd.frag_index false then
    (⟨false, [], hd.frame_id⟩, some fr)
  else if fr.received_count + 1 = fr.total_frags then
    (⟨true,
      if new_final_size fr hd payload < (written_buffer fr hd payload).length
      then (written_buffer fr hd payload).take (new_final_size fr hd payload)
      else written_buffer fr hd payload, hd.frame_id⟩, none)
  else
    (⟨false, [], hd.frame_id⟩,
     some { fr with buffer := written_buffer fr hd payload,
                    final_data_size := new_final_size fr hd payload,
                    received_mask := fr.received_mask.set hd.frag_index true,
                    received_count := fr.received_count + 1 })

/-- Lines 79–113 of `add_fragment`: refresh `last_update` (line 79), then
process the fragment against the entry. -/
def process_entry (fr0 : IncompleteFrame) (now : Nat) (hd : StreampuHeader)
    (payload : List Nat) : Result × Option IncompleteFrame :=
  process_touched { fr0 with last_update := now } hd payload

/-- Lines 49–52 of `add_fragment`: by the time the fragment is looked up,
`cleanup_old_frames` has run exactly when the table was at or above
`MAX_PENDING_FRAMES`, so the lookup happens in this table. -/
def checked_table (st : PendingTable) (now : Nat) : PendingTable :=
  if MAX_PENDING_FRAMES ≤ st.length then cleanup_old_frames st now else st

/-- Lines 56–76 of `add_fragment`: the entry created for a previously
unseen `frame_id`.  The buffer is `resize`d to
`total_frags · STREAMPU_MAX_PAYLOAD` zero bytes and the mask to
`total_frags` entries (both using the `uint32_t` header value), but the
`total_frags` member is a `uint16_t`, so the stored count is reduced
`% 65536`. -/
def newFrame (hd : StreampuHeader) (now : Nat) : IncompleteFrame :=
  { buffer := List.replicate (hd.total_frags * STREAMPU_MAX_PAYLOAD) 0
    received_mask := List.replicate hd.total_frags false
    received_count := 0
    total_frags := hd.total_frags % 65536
    final_data_size := hd.total_frags * STREAMPU_MAX_PAYLOAD
    last_update := now }

/-- Lines 54–113 of `add_fragment`, after the capacity check: look the
frame up, create it if absent (rejecting a `total_frags · 1400` that
exceeds `STREAMPU_MAX_FRAME_SIZE`), then process the fragment against the
entry, writing the updated entry back (or erasing it on completion). -/
def add_fragment_body (st1 : PendingTable) (now : Nat) (hd : StreampuHeader)
    (payload : List Nat) : Result × PendingTable :=
  match lookupFrame st1 hd.frame_id with
  | some fr =>
      match process_entry fr now hd payload with
      | (r, some fr1) => (r, updateFrame st1 hd.frame_id (fun _ => fr1))
      | (r, none) => (r, eraseFrame st1 hd.frame_id)
  | none =>
      if STREAMPU_MAX_FRAME_SIZE < hd.total_frags * STREAMPU_MAX_PAYLOAD then
        (⟨false, [], hd.frame_id⟩, st1)
      else
        match process_entry (newFrame hd now) now hd payload with
        | (r, some fr1) =>
            (r, updateFrame (insertFrame st1 hd.frame_id (newFrame hd now))
                  hd.frame_id (fun _ => fr1))
        | (r, none) =>
            (r, eraseFrame (insertFrame st1 hd.frame_id (newFrame hd now)) hd.frame_id)

/-- `UdpReassembler::add_fragment(header, payload, payload_len)`.  The
payload pointer plus length is modelled as the list of bytes read; the
steady-clock sample is the explicit argument `now`.  `std::bad_alloc` is not
modelled (allocation always succeeds).  An oversize payload is rejected
first (line 46); then, if the table was at capacity and `frame_id` is still
absent after the cleanup, the fragment is dropped (line 51); otherwise the
fragment is processed against the (possibly cleaned) table. -/
def add_fragment (st : PendingTable) (now : Nat) (hd : StreampuHeader)
    (payload : List Nat) : Result × PendingTable :=
  if STREAMPU_MAX_PAYLOAD < payload.length then (⟨false, [], hd.frame_id⟩, st)
  else if MAX_PENDING_FRAMES ≤ st.length ∧
      lookupFrame (checked_table st now) hd.frame_id = none then
    (⟨false, [], hd.frame_id⟩, checked_table st now)
  else add_fragment_body (checked_table st now) now hd payload

/-- One received datagram together with the steady-clock value observed by
the `add_fragment` call that processes it. -/
structure TimedFragment where
  now : Nat
  header : StreampuHeader
  payload : List Nat
deriving Repr, DecidableEq

/-- Feed a sequence of datagrams into the reassembler, collecting the
`Result` of every call and the final table. -/
def run_fragments (st : PendingTable) : List TimedFragment → List Result × PendingTable
  | [] => ([], st)
  | f :: rest =>
      ((add_fragment st f.now f.header f.payload).1 ::
        (run_fragments (add_fragment st f.now f.header f.payload).2 rest).1,
       (run_fragments (add_fragment st f.now f.header f.payload).2 rest).2)

/-- The fragmentation loop of `UdpPacketizer::prepare_frame` (lines 71–94):
packet `i` carries the header `(frame_id, i, total_frags)` (both counters
stored as `uint32_t`) and points at `chunk_size = min(remaining, 1400)`
bytes of the caller's buffer at `offset`; then `offset += chunk_size`,
`remaining -= chunk_size`. -/
def fragment_loop (bytes : List Nat) (frame_id total_frags i offset remaining : Nat) :
    List (StreampuHeader × List Nat) :=
  if _h : i < total_frags then
    (⟨frame_id, i % 4294967296, total_frags % 4294967296⟩,
      (bytes.drop offset).take (min remaining STREAMPU_MAX_PAYLOAD))
      :: fragment_loop bytes frame_id total_frags (i + 1)
          (offset + min remaining STREAMPU_MAX_PAYLOAD)
          (remaining - min remaining STREAMPU_MAX_PAYLOAD)
  else []
termination_by total_frags - i

/-- `UdpPacketizer::prepare_frame(data, size, frame_id)`.  `data, size` is
modelled as the list of the `size` bytes the scatter/gather vectors point
at; the result is the list of (header, payload-slice) packets, or `error`
when the `FrameTooLarge` exception is thrown. -/
def prepare_frame (data : List Nat) (frame_id : Nat) :
    Except String (List (StreampuHeader × List Nat)) :=
  let size := data.length
  if STREAMPU_MAX_FRAME_SIZE < size then
    .error "Streampu: Frame too large for protocol limits"
  else
    let total_frags0 := (size + STREAMPU_MAX_PAYLOAD - 1) / STREAMPU_MAX_PAYLOAD
    let total_frags := if total_frags0 = 0 then 1 else total_frags0
    .ok (fragment_loop data frame_id total_frags 0 0 size)

/-- `Source_UDP::_generate(out_data, frame_id)` after `pop_frame` returned
`received`: on empty, `fill_n(out_data, max_data_size, 0)`; otherwise
`copy_n` the first `min(max_data_size, received.size())` bytes and zero-fill
the remainder.  `out0` is the task buffer of length `max_data_size`. -/
def source_udp_generate (out0 : List Nat) (received : List Nat) : List Nat :=
  if received.isEmpty then
    List.replicate out0.length 0
  else if min out0.length received.length < out0.length then
    writeAt (writeAt out0 0 (received.take (min out0.length received.length)))
      (min out0.length received.length)
      (List.replicate (out0.length - min out0.length received.length) 0)
  else
    writeAt out0 0 (received.take (min out0.length received.length))

/-- The `std::map` representation invariant: keys strictly increasing. -/
def TableWF (st : PendingTable) : Prop :=
  (st.map Prod.fst).Pairwise (· < ·)

instance (st : PendingTable) : Decidable (TableWF st) := by
  unfold TableWF; infer_instance

/-! ## The packetizer's fragmentation loop -/

theorem chunk_take_eq (bytes : List Nat) (off : Nat) :
    (bytes.drop (min off bytes.length)).take (min (bytes.length - off) STREAMPU_MAX_PAYLOAD) =
      (bytes.drop off).take STREAMPU_MAX_PAYLOAD := by
  rcases le_total off bytes.length with h | h
  · rw [min_eq_left h]
    apply List.take_eq_take.mpr
    simp only [List.length_drop]
    omega
  · rw [min_eq_right h, List.drop_length, List.drop_eq_nil_of_le h]
    simp

/-- Closed form of the fragmentation loop: starting at fragment `i` with the
loop invariants `offset = min (i·1400) |bytes|` and
`remaining = |bytes| − i·1400`, the loop emits one packet per index
`j ∈ [i, total)`, packet `j` carrying the slice of 1400 (or fewer, at the
end) bytes at offset `j·1400`. -/
theorem fragment_loop_spec (bytes : List Nat) (fid total : Nat) :
    ∀ n i, total - i = n →
      fragment_loop bytes fid total i (min (i * STREAMPU_MAX_PAYLOAD) bytes.length)
          (bytes.length - i * STREAMPU_MAX_PAYLOAD) =
        (List.range' i n).map (fun j =>
          (⟨fid, j % 4294967296, total % 4294967296⟩,
           (bytes.drop (j * STREAMPU_MAX_PAYLOAD)).take STREAMPU_MAX_PAYLOAD)) := by
  intro n
  induction n with
  | zero =>
      intro i hi
      rw [fragment_loop]
      simp only [List.range'_zero, List.map_nil]
      rw [dif_neg (by omega)]
  | succ n ih =>
      intro i hi
      have hlt : i < total := by omega
      rw [fragment_loop, dif_pos hlt, List.range'_succ, List.map_cons]
      have harg1 : min (i * STREAMPU_MAX_PAYLOAD) bytes.length +
          min (bytes.length - i * STREAMPU_MAX_PAYLOAD) STREAMPU_MAX_PAYLOAD =
          min ((i + 1) * STREAMPU_MAX_PAYLOAD) bytes.length := by
        simp only [STREAMPU_MAX_PAYLOAD]; omega
      have harg2 : (bytes.length - i * STREAMPU_MAX_PAYLOAD) -
          min (bytes.length - i * STREAMPU_MAX_PAYLOAD) STREAMPU_MAX_PAYLOAD =
          bytes.length - (i + 1) * STREAMPU_MAX_PAYLOAD := by
        simp only [STREAMPU_MAX_PAYLOAD]; omega
      rw [chunk_take_eq, harg1, harg2, ih (i + 1) (by omega)]

/-- Unfolding of `prepare_frame` on an accepted size, via `fragment_loop_spec`
at `i = 0`. -/
theorem prepare_frame_eq (data : List Nat) (fid : Nat)
    (hsz : data.length ≤ STREAMPU_MAX_FRAME_SIZE) :
    prepare_frame data fid = .ok ((List.range' 0
        (if (data.length + STREAMPU_MAX_PAYLOAD - 1) / STREAMPU_MAX_PAYLOAD = 0 then 1
         else (data.length + STREAMPU_MAX_PAYLOAD - 1) / STREAMPU_MAX_PAYLOAD)).map
      (fun j =>
        (⟨fid, j % 4294967296,
          (if (data.length + STREAMPU_MAX_PAYLOAD - 1) / STREAMPU_MAX_PAYLOAD = 0 then 1
           else (data.length + STREAMPU_MAX_PAYLOAD - 1) / STREAMPU_MAX_PAYLOAD) % 4294967296⟩,
         (data.drop (j * STREAMPU_MAX_PAYLOAD)).take STREAMPU_MAX_PAYLOAD))) := by
  have hloop := fragment_loop_spec data fid
    (if (data.length + STREAMPU_MAX_PAYLOAD - 1) / STREAMPU_MAX_PAYLOAD = 0 then 1
     else (data.length + STREAMPU_MAX_PAYLOAD - 1) / STREAMPU_MAX_PAYLOAD) _ 0 rfl
  rw [prepare_frame, if_neg (by omega)]
  simp only [Nat.zero_mul, Nat.min_eq_left (Nat.zero_le _), Nat.sub_zero] at hloop
  simp only [hloop, Nat.sub_zero]

/-- **C3.** For every size `L = data.length` with `0 ≤ L ≤ MAX_FRAME_SIZE`,
`prepare_frame(buf, L, id)` produces exactly `N = max 1 ⌈L/1400⌉` fragments;
fragments `0 … N−2` each have payload length exactly 1400, and fragment
`N−1` has payload length `L − (N−1)·1400` (possibly zero); fragment `i`'s
payload is the slice of the caller's buffer at offset `i·1400`, and its
header fields are `(id, i, N)`. -/
theorem prepare_frame_fragment_layout (data : List Nat) (fid : Nat)
    (hsz : data.length ≤ STREAMPU_MAX_FRAME_SIZE) :
    ∃ l, prepare_frame data fid = .ok l ∧
      l.length = max 1 ((data.length + STREAMPU_MAX_PAYLOAD - 1) / STREAMPU_MAX_PAYLOAD) ∧
      ∀ i, (hi : i < l.length) →
        (l.get ⟨i, hi⟩).1 = ⟨fid, i, l.length⟩ ∧
        (l.get ⟨i, hi⟩).2 =
          (data.drop (i * STREAMPU_MAX_PAYLOAD)).take STREAMPU_MAX_PAYLOAD ∧
        (l.get ⟨i, hi⟩).2.length =
          (if i + 1 < l.length then STREAMPU_MAX_PAYLOAD
           else data.length - i * STREAMPU_MAX_PAYLOAD) := by
  have hok := prepare_frame_eq data fid hsz
  simp only [STREAMPU_MAX_PAYLOAD, STREAMPU_MAX_FRAME_SIZE] at hsz hok ⊢
  have hif : (if (data.length + 1400 - 1) / 1400 = 0 then 1
      else (data.length + 1400 - 1) / 1400)
      = max 1 ((data.length + 1400 - 1) / 1400) := by
    split <;> omega
  rw [hif] at hok
  refine ⟨_, hok, by simp, ?_⟩
  intro i hi
  have hi' : i < max 1 ((data.length + 1400 - 1) / 1400) := by simpa using hi
  have hNle : max 1 ((data.length + 1400 - 1) / 1400) ≤ 4294967295 := by omega
  refine ⟨?_, ?_, ?_⟩
  · simp only [List.get_eq_getElem, List.getElem_map, List.getElem_range'_1,
      List.length_map, List.length_range', Nat.zero_add]
    have h1 : i % 4294967296 = i := Nat.mod_eq_of_lt (by omega)
    have h2 : max 1 ((data.length + 1400 - 1) / 1400) % 4294967296
        = max 1 ((data.length + 1400 - 1) / 1400) :=
      Nat.mod_eq_of_lt (by omega)
    simp [h1, h2]
    omega
  · simp [List.get_eq_getElem, List.getElem_map, List.getElem_range'_1]
  · simp only [List.get_eq_getElem, List.getElem_map, List.getElem_range'_1, Nat.zero_add,
      List.length_take, List.length_drop, List.length_map, List.length_range']
    split <;> omega

/-- Witness for C3 at the concrete input `data = [5, 7, 9]`, `fid = 2`:
one fragment, header `(2, 0, 1)`, payload the whole 3-byte buffer. -/
theorem prepare_frame_fragment_layout_witness :
    [5, 7, 9].length ≤ STREAMPU_MAX_FRAME_SIZE ∧
    ∃ l, prepare_frame [5, 7, 9] 2 = .ok l ∧
      l.length = max 1 (([5, 7, 9].length + STREAMPU_MAX_PAYLOAD - 1) / STREAMPU_MAX_PAYLOAD) ∧
      ∀ i, (hi : i < l.length) →
        (l.get ⟨i, hi⟩).1 = ⟨2, i, l.length⟩ ∧
        (l.get ⟨i, hi⟩).2 =
          ([5, 7, 9].drop (i * STREAMPU_MAX_PAYLOAD)).take STREAMPU_MAX_PAYLOAD ∧
        (l.get ⟨i, hi⟩).2.length =
          (if i + 1 < l.length then STREAMPU_MAX_PAYLOAD
           else [5, 7, 9].length - i * STREAMPU_MAX_PAYLOAD) :=
  ⟨by decide, prepare_frame_fragment_layout [5, 7, 9] 2 (by decide)⟩

/-- **C7.** `prepare_frame(data, size, id)` raises the `FrameTooLarge` error
if and only if `size > MAX_FRAME_SIZE = (2^32 − 1)·1400`; for `size = 0` it
does not fail but produces exactly one fragment with zero payload length. -/
theorem prepare_frame_too_large_iff (data : List Nat) (fid : Nat) :
    ((∃ msg, prepare_frame data fid = .error msg) ↔
      STREAMPU_MAX_FRAME_SIZE < data.length)
    ∧ (data = [] → prepare_frame data fid = .ok [(⟨fid, 0, 1⟩, [])]) := by
  constructor
  · by_cases h : STREAMPU_MAX_FRAME_SIZE < data.length
    · simp [prepare_frame, h]
    · simp [prepare_frame, h]
  · rintro rfl
    have hok := prepare_frame_eq [] fid (by simp [STREAMPU_MAX_FRAME_SIZE])
    simp only [STREAMPU_MAX_PAYLOAD] at hok
    simpa using hok

/-- Witness for C7 at concrete inputs: the empty frame is accepted as one
zero-payload fragment, and a frame is accepted exactly when its length is
within the limit. -/
theorem prepare_frame_too_large_iff_witness :
    prepare_frame [] 3 = .ok [(⟨3, 0, 1⟩, [])] ∧
    ¬ (∃ msg, prepare_frame [4, 4] 3 = .error msg) :=
  ⟨(prepare_frame_too_large_iff [] 3).2 rfl,
   fun h => by
    have := (prepare_frame_too_large_iff [4, 4] 3).1.mp h
    revert this
    decide⟩

/-! ## The Source_UDP adapter -/

/-- Both branches of `_generate` produce the first `min(max_data_size, len)`
received bytes followed by zeros. -/
theorem source_udp_generate_eq (out0 received : List Nat) (hne : received ≠ []) :
    source_udp_generate out0 received =
      received.take (min out0.length received.length) ++
        List.replicate (out0.length - min out0.length received.length) 0 := by
  have hr : received.isEmpty = false := by
    simpa [List.isEmpty_iff] using hne
  have hc : (received.take (min out0.length received.length)).length =
      min out0.length received.length := by
    simp [List.length_take]
  rw [source_udp_generate, hr, if_neg (by decide)]
  by_cases hlt : min out0.length received.length < out0.length
  · rw [if_pos hlt]
    simp only [writeAt, List.take_zero, List.nil_append, Nat.zero_add]
    rw [List.take_left' hc]
    have hdrop2 : ((received.take (min out0.length received.length)) ++
        out0.drop (min out0.length received.length)).drop
          (min out0.length received.length +
            (out0.length - min out0.length received.length)) = [] := by
      apply List.drop_eq_nil_of_le
      simp [hc, List.length_drop]
    rw [List.length_replicate, hc, hdrop2, List.append_nil]
  · rw [if_neg hlt]
    simp only [writeAt, List.take_zero, List.nil_append, Nat.zero_add]
    have hmin : min out0.length received.length = out0.length := by omega
    rw [hc, hmin, List.drop_length, List.append_nil]
    have h0 : out0.length - out0.length = 0 := by omega
    rw [h0, List.replicate_zero, List.append_nil]

/-- **C9.** For every call to `Source_UDP::_generate(out_data, frame_id)`:
if `pop_frame` returned empty, all `max_data_size` bytes of `out_data` are
set to zero; if it returned a frame of length `len`, exactly
`min(max_data_size, len)` bytes of the frame are copied to `out_data` and
the remaining `max_data_size − min(max_data_size, len)` bytes are set to
zero (silent truncation when `len > max_data_size`). -/
theorem source_udp_generate_spec (out0 received : List Nat) :
    (source_udp_generate out0 received).length = out0.length
    ∧ (received = [] → source_udp_generate out0 received = List.replicate out0.length 0)
    ∧ (received ≠ [] → ∀ i, i < out0.length →
        (source_udp_generate out0 received).getD i 0 =
          if i < min out0.length received.length then received.getD i 0 else 0) := by
  by_cases hr : received = []
  · subst hr
    exact ⟨by simp [source_udp_generate], fun _ => by simp [source_udp_generate],
      fun h => absurd rfl h⟩
  · rw [source_udp_generate_eq out0 received hr]
    have hc : (received.take (min out0.length received.length)).length =
        min out0.length received.length := by
      simp [List.length_take]
    refine ⟨?_, fun h => absurd h hr, ?_⟩
    · simp [hc, List.length_append, List.length_replicate]
    · intro _ i hi
      rw [List.getD_eq_getElem?_getD, List.getElem?_append]
      rw [hc]
      by_cases hic : i < min out0.length received.length
      · rw [if_pos hic, if_pos hic, List.getElem?_take, if_pos (by omega)]
        rw [List.getD_eq_getElem?_getD]
      · rw [if_neg hic, if_neg hic, List.getElem?_replicate,
          if_pos (by omega)]
        rfl

/-- Witness for C9: a 3-byte task buffer, with an empty pop result and with
a 2-byte received frame. -/
theorem source_udp_generate_spec_witness :
    source_udp_generate [1, 2, 3] [] = [0, 0, 0] ∧
    (source_udp_generate [1, 2, 3] [4, 5]).getD 1 0 = 5 ∧
    (source_udp_generate [1, 2, 3] [4, 5]).getD 2 0 = 0 :=
  ⟨by simpa using (source_udp_generate_spec [1, 2, 3] []).2.1 rfl,
   by simpa using (source_udp_generate_spec [1, 2, 3] [4, 5]).2.2 (by decide) 1 (by decide),
   by simpa using (source_udp_generate_spec [1, 2, 3] [4, 5]).2.2 (by decide) 2 (by decide)⟩

/-! ## Capacity, eviction, and the at-capacity drop (claims about
`cleanup_old_frames` and the line 49–52 path of `add_fragment`) -/

/-- A table of ten fresh (`last_update = 0`) pending entries with frame ids
0–9, each of the shape created from a `total_frags = 0` header (empty
buffer and mask). -/
def fullTable : PendingTable :=
  (List.range 10).map (fun i => (i, ⟨[], [], 0, 0, 0, 0⟩))

/-- **C2, counterexample.**  With ten fresh entries pending (frame ids 0–9)
and a fragment of the previously-unseen frame id 100 arriving, eviction
runs and frees a slot (the cleaned table has 9 entries), yet the fragment
of the new frame is still dropped in that call: the result is incomplete
and no entry for id 100 exists afterwards.  This contradicts the claim that
a freed slot lets the arriving fragment be admitted in the same call. -/
theorem add_fragment_not_admitted_after_eviction :
    (cleanup_old_frames fullTable 0).length = 9
    ∧ (add_fragment fullTable 0 ⟨100, 0, 1⟩ [7]).1.complete = false
    ∧ ((add_fragment fullTable 0 ⟨100, 0, 1⟩ [7]).2).length = 9
    ∧ lookupFrame (add_fragment fullTable 0 ⟨100, 0, 1⟩ [7]).2 100 = none := by
  decide

/-- **C2, amended.**  For every call to `add_fragment` with the pending
table holding `MAX_PENDING_FRAMES` (10) or more entries: eviction
(`cleanup_old_frames`) runs unconditionally — whether or not
`header.frame_id` is already present — and if `header.frame_id` has no
entry in the cleaned table (in particular, for every previously-unseen
frame id), the fragment is dropped: the call returns incomplete and leaves
the table exactly as eviction left it, even though eviction left the table
strictly below capacity. -/
theorem add_fragment_at_capacity_drops_unknown (st : PendingTable) (now : Nat)
    (hd : StreampuHeader) (payload : List Nat)
    (hcap : MAX_PENDING_FRAMES ≤ st.length)
    (hpay : payload.length ≤ STREAMPU_MAX_PAYLOAD) :
    (lookupFrame (cleanup_old_frames st now) hd.frame_id = none →
      add_fragment st now hd payload =
        (⟨false, [], hd.frame_id⟩, cleanup_old_frames st now))
    ∧ (∀ fr, lookupFrame (cleanup_old_frames st now) hd.frame_id = some fr →
        add_fragment st now hd payload =
          add_fragment_body (cleanup_old_frames st now) now hd payload)
    ∧ (st.length = MAX_PENDING_FRAMES →
        (cleanup_old_frames st now).length < MAX_PENDING_FRAMES) := by
  have hchk : checked_table st now = cleanup_old_frames st now := by
    rw [checked_table, if_pos hcap]
  refine ⟨?_, ?_, ?_⟩
  · intro habs
    rw [add_fragment, if_neg (by omega), hchk, if_pos ⟨hcap, habs⟩]
  · intro fr hfr
    rw [add_fragment, if_neg (by omega), hchk,
      if_neg (fun hc => by rw [hfr] at hc; exact absurd hc.2 (by simp))]
  · intro h10
    rw [cleanup_old_frames]
    have hfl := List.length_filter_le
      (fun e => decide (now - e.2.last_update ≤ FRAME_TIMEOUT_MS)) st
    split
    · rename_i hge
      simp only [List.length_tail]
      simp only [MAX_PENDING_FRAMES] at *
      omega
    · rename_i hlt
      omega

/-- Witness for C2 (amended) at the concrete full table. -/
theorem add_fragment_at_capacity_drops_unknown_witness :
    MAX_PENDING_FRAMES ≤ fullTable.length
    ∧ ([7] : List Nat).length ≤ STREAMPU_MAX_PAYLOAD
    ∧ lookupFrame (cleanup_old_frames fullTable 0) 100 = none
    ∧ add_fragment fullTable 0 ⟨100, 0, 1⟩ [7] =
        (⟨false, [], 100⟩, cleanup_old_frames fullTable 0) :=
  ⟨by decide, by decide, by decide,
   (add_fragment_at_capacity_drops_unknown fullTable 0 ⟨100, 0, 1⟩ [7]
      (by decide) (by decide)).1 (by decide)⟩

/-- **C5.**  When eviction runs on a table at or above
`MAX_PENDING_FRAMES` entries (keys in `std::map` order): every surviving
entry is a live entry of the original table (entries whose `last_update`
lies more than `FRAME_TIMEOUT_MS = 1000` ms in the past are all removed);
if after the timeout sweep the table is below capacity nothing else is
removed; and if it is still full, exactly one further victim is evicted —
the entry with the lowest frame id. -/
theorem cleanup_eviction_policy (st : PendingTable) (now : Nat)
    (hwf : TableWF st) (hcap : MAX_PENDING_FRAMES ≤ st.length) :
    (∀ e ∈ cleanup_old_frames st now,
        e ∈ st ∧ now - e.2.last_update ≤ FRAME_TIMEOUT_MS)
    ∧ ((st.filter (fun e => decide (now - e.2.last_update ≤ FRAME_TIMEOUT_MS))).length
          < MAX_PENDING_FRAMES →
        cleanup_old_frames st now =
          st.filter (fun e => decide (now - e.2.last_update ≤ FRAME_TIMEOUT_MS)))
    ∧ (MAX_PENDING_FRAMES ≤
        (st.filter (fun e => decide (now - e.2.last_update ≤ FRAME_TIMEOUT_MS))).length →
        ∃ v, st.filter (fun e => decide (now - e.2.last_update ≤ FRAME_TIMEOUT_MS)) =
            v :: cleanup_old_frames st now
          ∧ ∀ e ∈ cleanup_old_frames st now, v.1 < e.1) := by
  refine ⟨?_, ?_, ?_⟩
  · intro e he
    have hmem : e ∈ st.filter (fun e => decide (now - e.2.last_update ≤ FRAME_TIMEOUT_MS)) := by
      rw [cleanup_old_frames] at he
      split at he
      · exact List.mem_of_mem_tail he
      · exact he
    have := List.mem_filter.mp hmem
    exact ⟨this.1, by simpa using this.2⟩
  · intro hlt
    rw [cleanup_old_frames, if_neg (by omega)]
  · intro hge
    rw [cleanup_old_frames, if_pos hge]
    obtain ⟨v, tl, hv⟩ := List.exists_cons_of_ne_nil
      (List.ne_nil_of_length_pos (by simp only [MAX_PENDING_FRAMES] at hge; omega) :
        st.filter (fun e => decide (now - e.2.last_update ≤ FRAME_TIMEOUT_MS)) ≠ [])
    refine ⟨v, by rw [hv, List.tail_cons], ?_⟩
    intro e he
    rw [hv, List.tail_cons] at he
    have hsub : ((st.filter
        (fun e => decide (now - e.2.last_update ≤ FRAME_TIMEOUT_MS))).map Prod.fst).Pairwise
        (· < ·) :=
      hwf.sublist ((List.filter_sublist st).map Prod.fst)
    rw [hv, List.map_cons, List.pairwise_cons] at hsub
    exact hsub.1 e.1 (List.mem_map_of_mem Prod.fst he)

/-- Witness for C5 at the concrete full table (all entries fresh, so the
timeout sweep removes nothing and the forced eviction removes frame id 0). -/
theorem cleanup_eviction_policy_witness :
    TableWF fullTable ∧ MAX_PENDING_FRAMES ≤ fullTable.length
    ∧ (∀ e ∈ cleanup_old_frames fullTable 0,
        e ∈ fullTable ∧ 0 - e.2.last_update ≤ FRAME_TIMEOUT_MS) :=
  ⟨by decide, by decide,
   (cleanup_eviction_policy fullTable 0 (by decide) (by decide)).1⟩

/-! ## Table access lemmas -/

theorem lookupFrame_none_updateFrame (st : PendingTable) (k : Nat)
    (f : IncompleteFrame → IncompleteFrame) (h : lookupFrame st k = none) :
    updateFrame st k f = st := by
  induction st with
  | nil => rfl
  | cons e rest ih =>
      rw [lookupFrame] at h
      by_cases he : e.1 = k
      · rw [if_pos he] at h
        cases h
      · rw [if_neg he] at h
        simp only [updateFrame, List.map_cons, if_neg he]
        have : updateFrame rest k f = rest := ih h
        rw [updateFrame] at this
        rw [this]

theorem updateFrame_insertFrame_self (st : PendingTable) (k : Nat)
    (v : IncompleteFrame) (h : lookupFrame st k = none) :
    updateFrame (insertFrame st k v) k (fun _ => v) = insertFrame st k v := by
  induction st with
  | nil => simp [insertFrame, updateFrame]
  | cons e rest ih =>
      rw [lookupFrame] at h
      by_cases he : e.1 = k
      · rw [if_pos he] at h
        cases h
      · rw [if_neg he] at h
        rw [insertFrame]
        by_cases hk1 : k < e.1
        · rw [if_pos hk1]
          simp only [updateFrame, List.map_cons, if_pos rfl, if_neg he]
          have : updateFrame rest k (fun _ => v) = rest :=
            lookupFrame_none_updateFrame rest k _ h
          rw [updateFrame] at this
          rw [this]
          simp
        · rw [if_neg hk1, if_neg (fun hh => he hh.symm)]
          simp only [updateFrame, List.map_cons, if_neg he]
          have := ih h
          rw [updateFrame] at this
          rw [this]

theorem lookupFrame_updateFrame_self (st : PendingTable) (k : Nat)
    (v fr : IncompleteFrame) (h : lookupFrame st k = some fr) :
    lookupFrame (updateFrame st k (fun _ => v)) k = some v := by
  induction st with
  | nil => cases h
  | cons e rest ih =>
      rw [lookupFrame] at h
      by_cases he : e.1 = k
      · simp [updateFrame, lookupFrame, he]
      · rw [if_neg he] at h
        simp only [updateFrame, List.map_cons, if_neg he, lookupFrame]
        exact ih h

theorem process_entry_total_le (fr : IncompleteFrame) (now : Nat)
    (hd : StreampuHeader) (payload : List Nat)
    (h : fr.total_frags ≤ hd.frag_index) :
    process_entry fr now hd payload =
      (⟨false, [], hd.frame_id⟩, some { fr with last_update := now }) := by
  simp only [process_entry, process_touched]
  rw [if_pos (by simpa using h)]

/-! ## Frames created from a `total_frags = 0` header (C10) -/

/-- **C10.**  A fragment whose header carries `total_frags = 0`, arriving
for a frame id not yet pending while the table is below capacity, returns
incomplete yet inserts a pending entry for that id with an empty buffer and
empty mask; and for any pending entry whose stored `total_frags` is 0,
every subsequent fragment for that frame id is likewise rejected
(`frag_index ≥ 0 = total_frags`) while the entry survives with its buffer,
mask and count unchanged — it can never complete and keeps occupying its
table slot until eviction removes it. -/
theorem add_fragment_total_frags_zero (st : PendingTable) (now : Nat)
    (hd : StreampuHeader) (payload : List Nat)
    (hlen : st.length < MAX_PENDING_FRAMES)
    (habs : lookupFrame st hd.frame_id = none)
    (h0 : hd.total_frags = 0)
    (hpay : payload.length ≤ STREAMPU_MAX_PAYLOAD) :
    add_fragment st now hd payload =
      (⟨false, [], hd.frame_id⟩,
        insertFrame st hd.frame_id ⟨[], [], 0, 0, 0, now⟩)
    ∧ (∀ (st1 : PendingTable) (now1 : Nat) (hd1 : StreampuHeader)
          (payload1 : List Nat) (fr : IncompleteFrame),
        st1.length < MAX_PENDING_FRAMES →
        lookupFrame st1 hd1.frame_id = some fr →
        fr.total_frags = 0 →
        (add_fragment st1 now1 hd1 payload1).1.complete = false
        ∧ ∃ fr1,
            lookupFrame (add_fragment st1 now1 hd1 payload1).2 hd1.frame_id = some fr1
            ∧ fr1.total_frags = 0 ∧ fr1.buffer = fr.buffer
            ∧ fr1.received_mask = fr.received_mask
            ∧ fr1.received_count = fr.received_count) := by
  constructor
  · have hchk : checked_table st now = st := by
      rw [checked_table, if_neg (by omega)]
    have hnf : newFrame hd now = ⟨[], [], 0, 0, 0, now⟩ := by
      simp [newFrame, h0]
    rw [add_fragment, if_neg (by omega), hchk,
      if_neg (fun hc => absurd hc.1 (by omega))]
    simp only [add_fragment_body, habs]
    rw [if_neg (by simp [h0, STREAMPU_MAX_FRAME_SIZE])]
    rw [process_entry_total_le _ _ _ _ (by simp [hnf])]
    simp only [hnf]
    rw [updateFrame_insertFrame_self st hd.frame_id _ habs]
  · intro st1 now1 hd1 payload1 fr hlen1 hlook1 hfr0
    by_cases hp : STREAMPU_MAX_PAYLOAD < payload1.length
    · rw [add_fragment, if_pos hp]
      exact ⟨rfl, fr, hlook1, hfr0, rfl, rfl, rfl⟩
    · have hchk1 : checked_table st1 now1 = st1 := by
        rw [checked_table, if_neg (by omega)]
      rw [add_fragment, if_neg hp, hchk1,
        if_neg (fun hc => absurd hc.1 (by omega))]
      simp only [add_fragment_body, hlook1]
      rw [process_entry_total_le _ _ _ _ (by omega)]
      refine ⟨rfl, { fr with last_update := now1 },
        lookupFrame_updateFrame_self st1 hd1.frame_id _ fr hlook1, by simpa using hfr0,
        rfl, rfl, rfl⟩

/-- Witness for C10: from the empty table, a `total_frags = 0` header for
frame id 5 creates the stuck empty entry. -/
theorem add_fragment_total_frags_zero_witness :
    ([] : PendingTable).length < MAX_PENDING_FRAMES
    ∧ add_fragment [] 3 ⟨5, 0, 0⟩ [] =
        (⟨false, [], 5⟩, insertFrame [] 5 ⟨[], [], 0, 0, 0, 3⟩) :=
  ⟨by decide,
   (add_fragment_total_frags_zero [] 3 ⟨5, 0, 0⟩ [] (by decide) rfl rfl
      (by decide)).1⟩

/-! ## Duplicate fragments (C6).  A duplicate only refreshes the entry's
`last_update`; while the table stays below capacity, `last_update` values
cannot influence any later result. -/

/-- Equality of all `IncompleteFrame` fields except `last_update`. -/
def sameCore (a b : IncompleteFrame) : Prop :=
  a.buffer = b.buffer ∧ a.received_mask = b.received_mask ∧
  a.received_count = b.received_count ∧ a.total_frags = b.total_frags ∧
  a.final_data_size = b.final_data_size

/-- Two tables with the same keys in the same order whose entries agree on
everything but `last_update`. -/
def TimeEquiv (s t : PendingTable) : Prop :=
  List.Forall₂ (fun a b => a.1 = b.1 ∧ sameCore a.2 b.2) s t

theorem sameCore_refl (a : IncompleteFrame) : sameCore a a :=
  ⟨rfl, rfl, rfl, rfl, rfl⟩

theorem timeEquiv_refl (s : PendingTable) : TimeEquiv s s := by
  induction s with
  | nil => exact List.Forall₂.nil
  | cons e rest ih => exact List.Forall₂.cons ⟨rfl, sameCore_refl e.2⟩ ih

theorem TimeEquiv.length_eq {s t : PendingTable} (h : TimeEquiv s t) :
    s.length = t.length := List.Forall₂.length_eq h

theorem sameCore.touch_eq {a b : IncompleteFrame} (h : sameCore a b) (n : Nat) :
    ({ a with last_update := n }) = ({ b with last_update := n }) := by
  obtain ⟨h1, h2, h3, h4, h5⟩ := h
  cases a; cases b
  simp_all

theorem TimeEquiv.lookup {s t : PendingTable} (h : TimeEquiv s t) (k : Nat) :
    (lookupFrame s k = none ∧ lookupFrame t k = none) ∨
    (∃ fa fb, lookupFrame s k = some fa ∧ lookupFrame t k = some fb ∧
      sameCore fa fb) := by
  induction h with
  | nil => exact Or.inl ⟨rfl, rfl⟩
  | cons hab hrest ih =>
      rename_i a b as bs
      obtain ⟨hk, hcore⟩ := hab
      by_cases he : a.1 = k
      · exact Or.inr ⟨a.2, b.2, by rw [lookupFrame, if_pos he],
          by rw [lookupFrame, if_pos (hk ▸ he)], hcore⟩
      · have hbk : ¬ b.1 = k := by rw [← hk]; exact he
        simp only [lookupFrame, if_neg he, if_neg hbk]
        exact ih

theorem TimeEquiv.insert {s t : PendingTable} (h : TimeEquiv s t) (k : Nat)
    (v : IncompleteFrame) :
    TimeEquiv (insertFrame s k v) (insertFrame t k v) := by
  induction h with
  | nil => exact List.Forall₂.cons ⟨rfl, sameCore_refl v⟩ List.Forall₂.nil
  | cons hab hrest ih =>
      rename_i a b as bs
      obtain ⟨hk, hcore⟩ := hab
      rw [insertFrame, insertFrame, ← hk]
      by_cases h1 : k < a.1
      · rw [if_pos h1, if_pos h1]
        exact .cons ⟨rfl, sameCore_refl v⟩ (.cons ⟨hk, hcore⟩ hrest)
      · rw [if_neg h1, if_neg h1]
        by_cases h2 : k = a.1
        · rw [if_pos h2, if_pos h2]
          exact .cons ⟨hk, hcore⟩ hrest
        · rw [if_neg h2, if_neg h2]
          exact .cons ⟨hk, hcore⟩ ih

theorem TimeEquiv.update {s t : PendingTable} (h : TimeEquiv s t) (k : Nat)
    (v : IncompleteFrame) :
    TimeEquiv (updateFrame s k (fun _ => v)) (updateFrame t k (fun _ => v)) := by
  induction h with
  | nil => exact List.Forall₂.nil
  | cons hab hrest ih =>
      rename_i a b as bs
      obtain ⟨hk, hcore⟩ := hab
      simp only [updateFrame, List.map_cons, ← hk]
      by_cases h1 : a.1 = k
      · rw [if_pos h1, if_pos h1]
        exact .cons ⟨rfl, sameCore_refl v⟩ ih
      · rw [if_neg h1, if_neg h1]
        exact .cons ⟨hk, hcore⟩ ih

theorem TimeEquiv.erase {s t : PendingTable} (h : TimeEquiv s t) (k : Nat) :
    TimeEquiv (eraseFrame s k) (eraseFrame t k) := by
  induction h with
  | nil => exact List.Forall₂.nil
  | cons hab hrest ih =>
      rename_i a b as bs
      obtain ⟨hk, hcore⟩ := hab
      simp only [eraseFrame, List.filter_cons, ← hk]
      by_cases h1 : a.1 = k
      · rw [if_neg (by simp [h1]), if_neg (by simp [h1])]
        exact ih
      · rw [if_pos (by simp [h1]), if_pos (by simp [h1])]
        exact .cons ⟨hk, hcore⟩ ih

theorem process_entry_congr {fa fb : IncompleteFrame} (h : sameCore fa fb)
    (now : Nat) (hd : StreampuHeader) (payload : List Nat) :
    process_entry fa now hd payload = process_entry fb now hd payload := by
  simp only [process_entry]
  rw [h.touch_eq now]

/-- One-step simulation: below capacity, `add_fragment` returns the same
result on time-equivalent tables and preserves time-equivalence. -/
theorem add_fragment_time_equiv {s t : PendingTable} (h : TimeEquiv s t)
    (hlen : s.length < MAX_PENDING_FRAMES) (now : Nat) (hd : StreampuHeader)
    (payload : List Nat) :
    (add_fragment s now hd payload).1 = (add_fragment t now hd payload).1
    ∧ TimeEquiv (add_fragment s now hd payload).2
        (add_fragment t now hd payload).2 := by
  have hlt : t.length < MAX_PENDING_FRAMES := h.length_eq ▸ hlen
  by_cases hp : STREAMPU_MAX_PAYLOAD < payload.length
  · rw [add_fragment, add_fragment, if_pos hp, if_pos hp]
    exact ⟨rfl, h⟩
  · have hchks : checked_table s now = s := by rw [checked_table, if_neg (by omega)]
    have hchkt : checked_table t now = t := by rw [checked_table, if_neg (by omega)]
    rw [add_fragment, add_fragment, if_neg hp, if_neg hp, hchks, hchkt,
      if_neg (fun hc => absurd hc.1 (by omega)),
      if_neg (fun hc => absurd hc.1 (by omega))]
    rcases h.lookup hd.frame_id with ⟨hns, hnt⟩ | ⟨fa, fb, hsa, htb, hcore⟩
    · simp only [add_fragment_body, hns, hnt]
      by_cases hbig : STREAMPU_MAX_FRAME_SIZE < hd.total_frags * STREAMPU_MAX_PAYLOAD
      · rw [if_pos hbig, if_pos hbig]
        exact ⟨rfl, h⟩
      · rw [if_neg hbig, if_neg hbig]
        rcases hpe : process_entry (newFrame hd now) now hd payload with ⟨r, ofr⟩
        cases ofr with
        | some fr1 =>
            simp only [hpe]
            exact ⟨by simp, (h.insert hd.frame_id (newFrame hd now)).update hd.frame_id fr1⟩
        | none =>
            simp only [hpe]
            exact ⟨by simp, (h.insert hd.frame_id (newFrame hd now)).erase hd.frame_id⟩
    · simp only [add_fragment_body, hsa, htb]
      rw [process_entry_congr hcore]
      rcases hpe : process_entry fb now hd payload with ⟨r, ofr⟩
      cases ofr with
      | some fr1 =>
          simp only [hpe]
          exact ⟨by simp, h.update hd.frame_id fr1⟩
      | none =>
          simp only [hpe]
          exact ⟨by simp, h.erase hd.frame_id⟩

/-- The run starting at `st` stays strictly below `MAX_PENDING_FRAMES`
before every step. -/
def belowCapB : PendingTable → List TimedFragment → Bool
  | _, [] => true
  | st, f :: rest =>
      decide (st.length < MAX_PENDING_FRAMES) &&
        belowCapB (add_fragment st f.now f.header f.payload).2 rest

theorem belowCapB_congr (frags : List TimedFragment) :
    ∀ {s t : PendingTable}, TimeEquiv s t →
      belowCapB s frags = belowCapB t frags := by
  induction frags with
  | nil => intro s t _; rfl
  | cons f rest ih =>
      intro s t h
      rw [belowCapB, belowCapB, h.length_eq]
      by_cases hlen : t.length < MAX_PENDING_FRAMES
      · have hs : s.length < MAX_PENDING_FRAMES := by
          rw [h.length_eq]; exact hlen
        have hsim := add_fragment_time_equiv h hs f.now f.header f.payload
        rw [ih hsim.2]
      · simp [hlen]

theorem run_fragments_time_equiv (frags : List TimedFragment) :
    ∀ {s t : PendingTable}, TimeEquiv s t → belowCapB s frags = true →
      (run_fragments s frags).1 = (run_fragments t frags).1
      ∧ TimeEquiv (run_fragments s frags).2 (run_fragments t frags).2 := by
  induction frags with
  | nil => intro s t h _; exact ⟨rfl, h⟩
  | cons f rest ih =>
      intro s t h hcap
      rw [belowCapB, Bool.and_eq_true, decide_eq_true_eq] at hcap
      have hsim := add_fragment_time_equiv h hcap.1 f.now f.header f.payload
      have hrest := ih hsim.2 hcap.2
      rw [run_fragments, run_fragments]
      exact ⟨by rw [hsim.1, hrest.1], hrest.2⟩

theorem lookupFrame_eq_none_of_not_mem (st : PendingTable) (k : Nat)
    (h : k ∉ st.map Prod.fst) : lookupFrame st k = none := by
  induction st with
  | nil => rfl
  | cons e rest ih =>
      rw [List.map_cons, List.mem_cons] at h
      push_neg at h
      rw [lookupFrame, if_neg (fun he => h.1 he.symm)]
      exact ih h.2

/-- Refreshing the `last_update` of the looked-up entry yields a
time-equivalent table (the `std::map` invariant guarantees the key occurs
once). -/
theorem touch_update_time_equiv (k now : Nat) (fr : IncompleteFrame) :
    ∀ st : PendingTable, TableWF st → lookupFrame st k = some fr →
      TimeEquiv (updateFrame st k (fun _ => { fr with last_update := now })) st := by
  intro st
  induction st with
  | nil => intro _ h; cases h
  | cons e rest ih =>
      intro hwf hlook
      rw [lookupFrame] at hlook
      rw [TableWF, List.map_cons, List.pairwise_cons] at hwf
      by_cases he : e.1 = k
      · rw [if_pos he] at hlook
        injection hlook with hfr
        simp only [updateFrame, List.map_cons, if_pos he]
        refine List.Forall₂.cons ⟨rfl, ?_⟩ ?_
        · rw [← hfr]
          exact ⟨rfl, rfl, rfl, rfl, rfl⟩
        · have hnone : lookupFrame rest k = none := by
            apply lookupFrame_eq_none_of_not_mem
            intro hmem
            exact absurd (he ▸ hwf.1 k hmem) (lt_irrefl k)
          have hupd : updateFrame rest k
              (fun _ => { fr with last_update := now }) = rest :=
            lookupFrame_none_updateFrame rest k _ hnone
          rw [updateFrame] at hupd
          rw [hupd]
          exact timeEquiv_refl rest
      · rw [if_neg he] at hlook
        simp only [updateFrame, List.map_cons, if_neg he]
        exact List.Forall₂.cons ⟨rfl, sameCore_refl e.2⟩ (ih hwf.2 hlook)

/-- **C6, amended.**  For a pending frame, while the pending table holds
fewer than `MAX_PENDING_FRAMES` entries, a second `add_fragment` call with
a `frag_index` whose bit is already set in the received mask returns
incomplete, and the table changes only by refreshing that entry's
`last_update` — buffer, mask and count are untouched; consequently, as long
as the table stays below capacity, feeding any further fragment sequence to
the post-duplicate table produces exactly the results it would have
produced without the duplicate: neither the bytes of the eventually
completed frame nor which fragment delivery completes it change.
(The below-capacity scoping is forced: at capacity, the cleanup of lines
49–52 runs before the duplicate check, so a duplicate fragment of a stale
pending frame erases the entry instead — see the counterexample below.) -/
theorem add_fragment_duplicate (st : PendingTable) (now : Nat)
    (hd : StreampuHeader) (payload : List Nat) (fr : IncompleteFrame)
    (hwf : TableWF st)
    (hlen : st.length < MAX_PENDING_FRAMES)
    (hlook : lookupFrame st hd.frame_id = some fr)
    (hdup : fr.received_mask.getD hd.frag_index false = true)
    (hpay : payload.length ≤ STREAMPU_MAX_PAYLOAD) :
    add_fragment st now hd payload =
      (⟨false, [], hd.frame_id⟩,
        updateFrame st hd.frame_id (fun _ => { fr with last_update := now }))
    ∧ ∀ rest, belowCapB st rest = true →
        (run_fragments (updateFrame st hd.frame_id
            (fun _ => { fr with last_update := now })) rest).1
          = (run_fragments st rest).1 := by
  have hchk : checked_table st now = st := by
    rw [checked_table, if_neg (by omega)]
  have hpe : process_entry fr now hd payload =
      (⟨false, [], hd.frame_id⟩, some { fr with last_update := now }) := by
    by_cases hge : fr.total_frags ≤ hd.frag_index
    · exact process_entry_total_le fr now hd payload hge
    · simp only [process_entry, process_touched]
      rw [if_neg (by simpa using hge), if_pos (by simpa using hdup)]
  constructor
  · rw [add_fragment, if_neg (by omega), hchk,
      if_neg (fun hc => absurd hc.1 (by omega))]
    simp only [add_fragment_body, hlook, hpe]
  · intro rest hcap
    have hequiv := touch_update_time_equiv hd.frame_id now fr st hwf hlook
    exact (run_fragments_time_equiv rest hequiv
      ((belowCapB_congr rest hequiv).trans hcap)).1

/-- The pending entry used by the C6 witness: a 2-fragment frame whose
fragment 0 has already been received. -/
def dupEntry : IncompleteFrame :=
  ⟨List.replicate 2800 0, [true, false], 1, 2, 2800, 0⟩

/-- Witness for C6: re-delivering fragment 0 of the pending 2-fragment
frame 3 returns incomplete and only refreshes `last_update`. -/
theorem add_fragment_duplicate_witness :
    TableWF [(3, dupEntry)]
    ∧ dupEntry.received_mask.getD 0 false = true
    ∧ add_fragment [(3, dupEntry)] 5 ⟨3, 0, 2⟩ [] =
      (⟨false, [], 3⟩,
        updateFrame [(3, dupEntry)] 3 (fun _ => { dupEntry with last_update := 5 })) :=
  ⟨by decide, by decide,
   (add_fragment_duplicate [(3, dupEntry)] 5 ⟨3, 0, 2⟩ [] dupEntry (by decide)
      (by decide) rfl rfl (by decide)).1⟩

/-- Ten pending entries with frame ids 0–9, all last updated at clock 0:
frame 3 is `dupEntry` (a 2-fragment frame with fragment 0 already
received); the others have the empty stuck shape. -/
def staleTable : PendingTable :=
  [(0, ⟨[], [], 0, 0, 0, 0⟩), (1, ⟨[], [], 0, 0, 0, 0⟩), (2, ⟨[], [], 0, 0, 0, 0⟩),
   (3, dupEntry), (4, ⟨[], [], 0, 0, 0, 0⟩), (5, ⟨[], [], 0, 0, 0, 0⟩),
   (6, ⟨[], [], 0, 0, 0, 0⟩), (7, ⟨[], [], 0, 0, 0, 0⟩), (8, ⟨[], [], 0, 0, 0, 0⟩),
   (9, ⟨[], [], 0, 0, 0, 0⟩)]

/-- **C6, counterexample.**  The unqualified claim fails when the table is
at capacity.  With the ten entries of `staleTable`, re-delivering
fragment 0 of the pending frame 3 — its mask bit is already set — at clock
2000 returns incomplete as the claim says, but does not leave the entry's
buffer, received mask and received count unchanged: since the table holds
`MAX_PENDING_FRAMES` entries, `cleanup_old_frames` runs before the
duplicate check (lines 49–52), erases every entry older than 1000 ms —
including frame 3's — and the fragment is dropped with the entry
destroyed. -/
theorem add_fragment_duplicate_at_capacity_destroys_entry :
    staleTable.length = MAX_PENDING_FRAMES
    ∧ lookupFrame staleTable 3 = some dupEntry
    ∧ dupEntry.received_mask.getD 0 false = true
    ∧ (add_fragment staleTable 2000 ⟨3, 0, 2⟩ []).1.complete = false
    ∧ lookupFrame (add_fragment staleTable 2000 ⟨3, 0, 2⟩ []).2 3 = none :=
  ⟨rfl, rfl, rfl, rfl, rfl⟩

/-! ## Bounded table invariant (C4) -/

theorem TableWF_filter (st : PendingTable) (p : Nat × IncompleteFrame → Bool)
    (h : TableWF st) : TableWF (st.filter p) :=
  h.sublist ((List.filter_sublist st).map Prod.fst)

theorem TableWF_tail (st : PendingTable) (h : TableWF st) : TableWF st.tail :=
  h.sublist ((List.tail_sublist st).map Prod.fst)

theorem TableWF_cleanup (st : PendingTable) (now : Nat) (h : TableWF st) :
    TableWF (cleanup_old_frames st now) := by
  rw [cleanup_old_frames]
  split
  · exact TableWF_tail _ (TableWF_filter st _ h)
  · exact TableWF_filter st _ h

theorem cleanup_length_lt (st : PendingTable) (now : Nat)
    (h : st.length ≤ MAX_PENDING_FRAMES) :
    (cleanup_old_frames st now).length < MAX_PENDING_FRAMES := by
  rw [cleanup_old_frames]
  have hfl := List.length_filter_le
    (fun e => decide (now - e.2.last_update ≤ FRAME_TIMEOUT_MS)) st
  split
  · rename_i hge
    simp only [List.length_tail]
    simp only [MAX_PENDING_FRAMES] at *
    omega
  · rename_i hlt
    simp only [MAX_PENDING_FRAMES] at *
    omega

theorem updateFrame_map_fst (st : PendingTable) (k : Nat)
    (f : IncompleteFrame → IncompleteFrame) :
    (updateFrame st k f).map Prod.fst = st.map Prod.fst := by
  induction st with
  | nil => rfl
  | cons e rest ih =>
      simp only [updateFrame, List.map_cons] at ih ⊢
      by_cases he : e.1 = k
      · simp only [if_pos he, List.map_cons, ih]
      · simp only [if_neg he, List.map_cons, ih]

theorem TableWF_update (st : PendingTable) (k : Nat)
    (f : IncompleteFrame → IncompleteFrame) (h : TableWF st) :
    TableWF (updateFrame st k f) := by
  rw [TableWF, updateFrame_map_fst]
  exact h

theorem updateFrame_length (st : PendingTable) (k : Nat)
    (f : IncompleteFrame → IncompleteFrame) :
    (updateFrame st k f).length = st.length := by
  simp [updateFrame]

theorem eraseFrame_length_le (st : PendingTable) (k : Nat) :
    (eraseFrame st k).length ≤ st.length :=
  List.length_filter_le _ _

theorem TableWF_erase (st : PendingTable) (k : Nat) (h : TableWF st) :
    TableWF (eraseFrame st k) :=
  TableWF_filter st _ h

theorem insertFrame_map_fst_subset (st : PendingTable) (k : Nat)
    (v : IncompleteFrame) :
    ∀ x ∈ (insertFrame st k v).map Prod.fst, x = k ∨ x ∈ st.map Prod.fst := by
  induction st with
  | nil =>
      intro x hx
      simp [insertFrame] at hx
      exact Or.inl hx
  | cons e rest ih =>
      intro x hx
      rw [insertFrame] at hx
      by_cases h1 : k < e.1
      · rw [if_pos h1] at hx
        simp only [List.map_cons, List.mem_cons] at hx ⊢
        tauto
      · rw [if_neg h1] at hx
        by_cases h2 : k = e.1
        · rw [if_pos h2] at hx
          simp only [List.map_cons, List.mem_cons] at hx ⊢
          tauto
        · rw [if_neg h2] at hx
          simp only [List.map_cons, List.mem_cons] at hx ⊢
          rcases hx with h | h
          · tauto
          · rcases ih x h with h3 | h3 <;> tauto

theorem TableWF_insert (st : PendingTable) (k : Nat) (v : IncompleteFrame)
    (h : TableWF st) : TableWF (insertFrame st k v) := by
  induction st with
  | nil => simp [insertFrame, TableWF]
  | cons e rest ih =>
      have h' := h
      rw [TableWF, List.map_cons, List.pairwise_cons] at h'
      rw [insertFrame]
      by_cases h1 : k < e.1
      · rw [if_pos h1]
        rw [TableWF, List.map_cons, List.pairwise_cons]
        refine ⟨?_, h⟩
        intro b hb
        simp only [List.map_cons, List.mem_cons] at hb
        rcases hb with rfl | hb
        · exact h1
        · exact h1.trans (h'.1 b hb)
      · by_cases h2 : k = e.1
        · rw [if_neg h1, if_pos h2]
          exact h
        · rw [if_neg h1, if_neg h2]
          rw [TableWF, List.map_cons, List.pairwise_cons]
          have he1k : e.1 < k := by omega
          refine ⟨?_, ih h'.2⟩
          intro b hb
          rcases insertFrame_map_fst_subset rest k v b hb with rfl | hb'
          · exact he1k
          · exact h'.1 b hb'

theorem insertFrame_length_le (st : PendingTable) (k : Nat)
    (v : IncompleteFrame) :
    (insertFrame st k v).length ≤ st.length + 1 := by
  induction st with
  | nil => simp [insertFrame]
  | cons e rest ih =>
      rw [insertFrame]
      by_cases h1 : k < e.1
      · rw [if_pos h1]
        simp
      · by_cases h2 : k = e.1
        · rw [if_neg h1, if_pos h2]
          simp
        · rw [if_neg h1, if_neg h2]
          simp only [List.length_cons]
          omega

theorem add_fragment_body_wf (st1 : PendingTable) (now : Nat)
    (hd : StreampuHeader) (payload : List Nat) (hwf : TableWF st1) :
    TableWF (add_fragment_body st1 now hd payload).2 := by
  rcases hl : lookupFrame st1 hd.frame_id with _ | fr
  · simp only [add_fragment_body, hl]
    split
    · exact hwf
    · rcases hpe : process_entry (newFrame hd now) now hd payload with ⟨r, ofr⟩
      cases ofr with
      | some fr1 =>
          simp only [hpe]
          exact TableWF_update _ _ _ (TableWF_insert st1 hd.frame_id _ hwf)
      | none =>
          simp only [hpe]
          exact TableWF_erase _ _ (TableWF_insert st1 hd.frame_id _ hwf)
  · simp only [add_fragment_body, hl]
    rcases hpe : process_entry fr now hd payload with ⟨r, ofr⟩
    cases ofr with
    | some fr1 =>
        simp only [hpe]
        exact TableWF_update _ _ _ hwf
    | none =>
        simp only [hpe]
        exact TableWF_erase _ _ hwf

theorem add_fragment_body_length_le (st1 : PendingTable) (now : Nat)
    (hd : StreampuHeader) (payload : List Nat) :
    (add_fragment_body st1 now hd payload).2.length ≤ st1.length + 1 := by
  rcases hl : lookupFrame st1 hd.frame_id with _ | fr
  · simp only [add_fragment_body, hl]
    split
    · exact Nat.le_succ _
    · rcases hpe : process_entry (newFrame hd now) now hd payload with ⟨r, ofr⟩
      cases ofr with
      | some fr1 =>
          simp only [hpe]
          rw [updateFrame_length]
          exact insertFrame_length_le st1 hd.frame_id _
      | none =>
          simp only [hpe]
          exact le_trans (eraseFrame_length_le _ _) (insertFrame_length_le st1 hd.frame_id _)
  · simp only [add_fragment_body, hl]
    rcases hpe : process_entry fr now hd payload with ⟨r, ofr⟩
    cases ofr with
    | some fr1 =>
        simp only [hpe]
        rw [updateFrame_length]
        omega
    | none =>
        simp only [hpe]
        have := eraseFrame_length_le st1 hd.frame_id
        omega

theorem add_fragment_preserves_inv (st : PendingTable) (now : Nat)
    (hd : StreampuHeader) (payload : List Nat)
    (hwf : TableWF st) (hlen : st.length ≤ MAX_PENDING_FRAMES) :
    TableWF (add_fragment st now hd payload).2
    ∧ (add_fragment st now hd payload).2.length ≤ MAX_PENDING_FRAMES := by
  by_cases hp : STREAMPU_MAX_PAYLOAD < payload.length
  · rw [add_fragment, if_pos hp]
    exact ⟨hwf, hlen⟩
  · rw [add_fragment, if_neg hp]
    by_cases hcap : MAX_PENDING_FRAMES ≤ st.length
    · have hchk : checked_table st now = cleanup_old_frames st now := by
        rw [checked_table, if_pos hcap]
      rw [hchk]
      have hwf1 : TableWF (cleanup_old_frames st now) := TableWF_cleanup st now hwf
      have hlen1 : (cleanup_old_frames st now).length < MAX_PENDING_FRAMES :=
        cleanup_length_lt st now hlen
      split
      · exact ⟨hwf1, le_of_lt hlen1⟩
      · refine ⟨add_fragment_body_wf _ now hd payload hwf1, ?_⟩
        have := add_fragment_body_length_le (cleanup_old_frames st now) now hd payload
        omega
    · have hchk : checked_table st now = st := by rw [checked_table, if_neg hcap]
      rw [hchk]
      split
      · exact ⟨hwf, hlen⟩
      · refine ⟨add_fragment_body_wf _ now hd payload hwf, ?_⟩
        have := add_fragment_body_length_le st now hd payload
        simp only [MAX_PENDING_FRAMES] at *
        omega

/-- **C4.**  Starting from an empty reassembler, after every sequence of
`add_fragment` calls the pending table holds at most
`MAX_PENDING_FRAMES = 10` entries, with at most one entry per frame id
(indeed the keys are strictly sorted, the `std::map` invariant). -/
theorem reassembler_table_bounded (frags : List TimedFragment) :
    (run_fragments [] frags).2.length ≤ MAX_PENDING_FRAMES
    ∧ ((run_fragments [] frags).2.map Prod.fst).Nodup := by
  have main : ∀ (fr : List TimedFragment) (st : PendingTable), TableWF st →
      st.length ≤ MAX_PENDING_FRAMES →
      TableWF (run_fragments st fr).2
      ∧ (run_fragments st fr).2.length ≤ MAX_PENDING_FRAMES := by
    intro fr
    induction fr with
    | nil =>
        intro st hwf hlen
        exact ⟨hwf, hlen⟩
    | cons f rest ih =>
        intro st hwf hlen
        rw [run_fragments]
        exact ih _ (add_fragment_preserves_inv st f.now f.header f.payload hwf hlen).1
          (add_fragment_preserves_inv st f.now f.header f.payload hwf hlen).2
  have h := main frags [] List.Pairwise.nil (by simp [MAX_PENDING_FRAMES])
  exact ⟨h.2, h.1.imp (fun hab => ne_of_lt hab)⟩

/-! ## The `uint16_t total_frags` narrowing (C1) -/

theorem run_fragments_length (frags : List TimedFragment) :
    ∀ st, (run_fragments st frags).1.length = frags.length := by
  induction frags with
  | nil =>
      intro st
      rfl
  | cons f rest ih =>
      intro st
      rw [run_fragments]
      simp [ih]

/-- Once a pending entry stores `total_frags = 0`, every further fragment
of that frame returns incomplete and the entry survives with
`total_frags = 0`. -/
theorem run_stuck_frame (k : Nat) (frags : List TimedFragment) :
    ∀ fr : IncompleteFrame, (∀ f ∈ frags, f.header.frame_id = k) →
      fr.total_frags = 0 →
      ∀ r ∈ (run_fragments [(k, fr)] frags).1, r.complete = false := by
  induction frags with
  | nil =>
      intro fr _ _ r hr
      cases hr
  | cons f rest ih =>
      intro fr hids h0
      have hid : f.header.frame_id = k := hids f (by simp)
      have hstep : ∃ fr1 : IncompleteFrame, fr1.total_frags = 0 ∧
          add_fragment [(k, fr)] f.now f.header f.payload =
            (⟨false, [], f.header.frame_id⟩, [(k, fr1)]) := by
        by_cases hp : STREAMPU_MAX_PAYLOAD < f.payload.length
        · exact ⟨fr, h0, by rw [add_fragment, if_pos hp]⟩
        · refine ⟨{ fr with last_update := f.now }, h0, ?_⟩
          have hchk : checked_table [(k, fr)] f.now = [(k, fr)] := by
            rw [checked_table, if_neg (by simp [MAX_PENDING_FRAMES])]
          have hlook : lookupFrame [(k, fr)] f.header.frame_id = some fr := by
            rw [lookupFrame, if_pos hid.symm]
          rw [add_fragment, if_neg hp, hchk,
            if_neg (fun hc => absurd hc.1 (by simp [MAX_PENDING_FRAMES]))]
          simp only [add_fragment_body, hlook]
          rw [process_entry_total_le fr f.now f.header f.payload (by omega)]
          rw [hid]
          simp [updateFrame]
      obtain ⟨fr1, h01, hstep⟩ := hstep
      intro r hr
      rw [run_fragments] at hr
      rw [hstep] at hr
      simp only [List.mem_cons] at hr
      rcases hr with rfl | hr
      · rfl
      · exact ih fr1 (fun f2 hf2 => hids f2 (by simp [hf2])) h01 r hr

/-- The failing input for the round-trip claim: a frame of
`65536 · 1400 = 91 750 400` bytes, i.e. exactly 65536 fragments. -/
def bigFrame : List Nat := List.replicate (65536 * 1400) 1

theorem bigFrame_length : bigFrame.length = 91750400 := by
  show (List.replicate (65536 * 1400) 1).length = 91750400
  rw [List.length_replicate]

/-- The packets `prepare_frame` emits for `bigFrame` with frame id 7. -/
def bigPackets : List (StreampuHeader × List Nat) :=
  (prepare_frame bigFrame 7).toOption.getD []

/-- `prepare_frame` accepts `bigFrame` and emits 65536 fragments. -/
theorem bigPackets_eq : bigPackets = (List.range' 0 65536).map
    (fun j => (⟨7, j % 4294967296, 65536⟩,
      (bigFrame.drop (j * 1400)).take 1400)) := by
  have h1 := prepare_frame_eq bigFrame 7 (by rw [bigFrame_length]; decide)
  rw [bigFrame_length] at h1
  norm_num [STREAMPU_MAX_PAYLOAD] at h1
  rw [bigPackets, h1]
  rfl

/-- Fragment 0 of `bigFrame` creates a pending entry whose `uint16_t`
`total_frags` member stores `65536 % 65536 = 0`, and is itself rejected by
the `frag_index >= frame.total_frags` check. -/
theorem bigFrame_first_step :
    add_fragment [] 0 ⟨7, 0, 65536⟩ (bigFrame.take 1400) =
      (⟨false, [], 7⟩, [(7, newFrame ⟨7, 0, 65536⟩ 0)]) := by
  have hp : ¬ STREAMPU_MAX_PAYLOAD < (bigFrame.take 1400).length := by
    rw [List.length_take, bigFrame_length]
    decide
  have hchk : checked_table [] 0 = [] := by
    rw [checked_table, if_neg (by simp [MAX_PENDING_FRAMES])]
  rw [add_fragment, if_neg hp, hchk,
    if_neg (fun hc => absurd hc.1 (by simp [MAX_PENDING_FRAMES]))]
  have hnone : lookupFrame ([] : PendingTable) 7 = none := rfl
  simp only [add_fragment_body, hnone]
  rw [if_neg (by decide)]
  rw [process_entry_total_le _ _ _ _ (by decide)]
  rfl

theorem run_fragments_cons (st : PendingTable) (f : TimedFragment)
    (rest : List TimedFragment) :
    run_fragments st (f :: rest) =
      ((add_fragment st f.now f.header f.payload).1 ::
        (run_fragments (add_fragment st f.now f.header f.payload).2 rest).1,
       (run_fragments (add_fragment st f.now f.header f.payload).2 rest).2) := rfl

/-- **C1 (refuted by the code: `uint16_t` narrowing).**  `prepare_frame`
accepts `bigFrame` (91 750 400 bytes, far below `MAX_FRAME_SIZE`) and emits
65536 fragments, but feeding all of them, in order, into a fresh
reassembler returns incomplete on every single call — in particular on the
last fragment, where the claim demands `complete = true` with
`data = bigFrame`.  The entry created for the frame stores
`total_frags = 65536 % 65536 = 0` in its `uint16_t` member
(UdpReassembler.hpp line 30 against the `uint32_t` wire field), so every
fragment fails the `frag_index >= frame.total_frags` check and the frame
can never complete. -/
theorem roundtrip_fails_at_65536_fragments :
    bigFrame.length = 65536 * 1400
    ∧ bigPackets.length = 65536
    ∧ (run_fragments [] (bigPackets.map (fun p => ⟨0, p.1, p.2⟩))).1.length = 65536
    ∧ (run_fragments [] (bigPackets.map (fun p => ⟨0, p.1, p.2⟩))).1.all
        (fun r => !r.complete) = true := by
  refine ⟨by rw [bigFrame_length],
    by rw [bigPackets_eq, List.length_map, List.length_range'], ?_, ?_⟩
  · rw [run_fragments_length, List.length_map, bigPackets_eq, List.length_map,
      List.length_range']
  · rw [bigPackets_eq, List.map_map]
    have h65536 : (65536 : Nat) = 65535 + 1 := by norm_num
    rw [h65536, List.range'_succ, List.map_cons, run_fragments_cons]
    dsimp only [Function.comp]
    simp only [Nat.zero_mod, Nat.zero_mul, List.drop_zero]
    rw [bigFrame_first_step]
    rw [List.all_cons]
    simp only [Bool.not_false, Bool.true_and]
    rw [List.all_eq_true]
    intro r hr
    have hres := run_stuck_frame 7 _ (newFrame ⟨7, 0, 65536⟩ 0)
      (by
        intro f2 hf2
        obtain ⟨j, hj, rfl⟩ := List.mem_map.mp hf2
        rfl)
      (by decide) r hr
    simp [hres]

/-! ## Two concrete completions (the reassembly path below the `uint16_t`
threshold does complete, including the empty frame and buffer trimming) -/

/-- The empty frame round-trips: its single zero-payload fragment completes
immediately with zero-length data. -/
theorem roundtrip_empty_example :
    ∃ l, prepare_frame [] 42 = .ok l ∧ l.length = 1 ∧
      (run_fragments [] (l.map (fun p => ⟨0, p.1, p.2⟩))).1.map
        (fun r => (r.complete, r.data, r.frame_id)) = [(true, [], 42)] := by
  have h1 := prepare_frame_eq [] 42 (by decide)
  norm_num [STREAMPU_MAX_PAYLOAD] at h1
  set_option maxRecDepth 20000 in
  exact ⟨_, h1, by decide, by decide⟩

/-- A 3-byte frame round-trips: one short fragment, and the completed
buffer is trimmed from the pre-allocated 1400 bytes down to the exact
3-byte payload. -/
theorem roundtrip_three_byte_example :
    ∃ l, prepare_frame [8, 6, 4] 42 = .ok l ∧ l.length = 1 ∧
      (run_fragments [] (l.map (fun p => ⟨0, p.1, p.2⟩))).1.map
        (fun r => (r.complete, r.data, r.frame_id)) = [(true, [8, 6, 4], 42)] := by
  have h1 := prepare_frame_eq [8, 6, 4] 42 (by decide)
  norm_num [STREAMPU_MAX_PAYLOAD] at h1
  set_option maxRecDepth 20000 in
  exact ⟨_, h1, by decide, by decide⟩

/-! ## Round trip below the `uint16_t` threshold: for frames of fewer than
65536 fragments the reassembler does reconstruct the exact input. -/

theorem set_append_length (A B : List Bool) (v : Bool) :
    (A ++ B).set A.length v = A ++ B.set 0 v := by
  induction A with
  | nil => simp
  | cons a A ih => simp [List.set_cons_succ, ih]

theorem set_append_length_idx (A B : List Bool) (n : Nat) (h : A.length = n)
    (v : Bool) : (A ++ B).set n v = A ++ B.set 0 v := by
  subst h
  exact set_append_length A B v

theorem mask_getD_boundary (k N : Nat) :
    (List.replicate k true ++ List.replicate (N - k) false).getD k false = false := by
  rw [List.getD_eq_getElem?_getD,
    List.getElem?_append_right (by simp)]
  simp [List.getElem?_replicate]
  split <;> rfl

theorem mask_set_boundary (k N : Nat) (hk : k < N) :
    (List.replicate k true ++ List.replicate (N - k) false).set k true =
      List.replicate (k + 1) true ++ List.replicate (N - (k + 1)) false := by
  rw [set_append_length_idx _ _ k (by simp)]
  have hNk : N - k = (N - k - 1) + 1 := by omega
  rw [hNk, List.replicate_succ, List.set_cons_zero]
  rw [List.replicate_succ' k true]
  have h2 : N - k - 1 = N - (k + 1) := by omega
  rw [h2, List.append_assoc, List.singleton_append]

/-- The pending entry after the first `k` fragments (delivered in index
order) of an `N`-fragment frame for `data` have been processed:
the first `k·1400` bytes are filled in, the mask has its first `k` bits
set, and `final_data_size` still holds the pre-allocated maximum. -/
def midFrame (data : List Nat) (N k t : Nat) : IncompleteFrame :=
  { buffer := data.take (k * 1400) ++ List.replicate (N * 1400 - k * 1400) 0
    received_mask := List.replicate k true ++ List.replicate (N - k) false
    received_count := k
    total_frags := N
    final_data_size := N * 1400
    last_update := t }

theorem written_buffer_midFrame (data : List Nat) (fid N k t : Nat)
    (hN : N = max 1 ((data.length + 1399) / 1400)) (hk : k < N) :
    written_buffer (midFrame data N k t) ⟨fid, k, N⟩
        ((data.drop (k * 1400)).take 1400) =
      data.take (k * 1400 + 1400) ++
        List.replicate (N * 1400 - k * 1400 - min 1400 (data.length - k * 1400)) 0 := by
  have hkL : k * 1400 ≤ data.length := by omega
  rw [written_buffer, frag_offset]
  simp only [midFrame, STREAMPU_MAX_PAYLOAD]
  rw [if_pos (by
    simp only [List.length_append, List.length_take, List.length_replicate,
      List.length_drop]
    omega)]
  rw [writeAt]
  rw [List.take_left' (by simp [List.length_take]; omega)]
  rw [show k * 1400 + ((data.drop (k * 1400)).take 1400).length
      = (data.take (k * 1400)).length + min 1400 (data.length - k * 1400) from by
    simp only [List.length_take, List.length_drop]
    omega]
  rw [List.drop_append, List.drop_replicate, ← List.take_add]

theorem new_final_size_midFrame (data : List Nat) (fid N k t : Nat)
    (hN : 1 ≤ N) :
    new_final_size (midFrame data N k t) ⟨fid, k, N⟩
        ((data.drop (k * 1400)).take 1400) =
      (if k + 1 = N
       then k * 1400 + min 1400 (data.length - k * 1400)
       else N * 1400) := by
  rw [new_final_size, frag_offset]
  simp only [midFrame, STREAMPU_MAX_PAYLOAD]
  rw [if_neg (by omega : ¬ N = 0)]
  by_cases hlast : k + 1 = N
  · rw [if_pos (by omega : k = N - 1), if_pos hlast]
    simp [List.length_take, List.length_drop]
  · rw [if_neg (by omega : ¬ k = N - 1), if_neg hlast]

/-- Processing fragment `k` (in order) against the partially assembled
entry: every fragment but the last leaves the entry one step further;
the last fragment completes with exactly the original bytes. -/
theorem process_midFrame (data : List Nat) (fid N k t now : Nat)
    (hN : N = max 1 ((data.length + 1399) / 1400)) (hk : k < N) :
    process_entry (midFrame data N k t) now ⟨fid, k, N⟩
        ((data.drop (k * 1400)).take 1400) =
      (if k + 1 = N
       then ((⟨true, data, fid⟩ : Result), (none : Option IncompleteFrame))
       else (⟨false, [], fid⟩, some (midFrame data N (k + 1) now))) := by
  have htouch : ({ midFrame data N k t with last_update := now })
      = midFrame data N k now := rfl
  rw [process_entry, htouch, process_touched]
  rw [if_neg (by simp only [midFrame]; omega)]
  rw [if_neg (by
    simp only [midFrame]
    rw [mask_getD_boundary k N]
    simp)]
  rw [written_buffer_midFrame data fid N k now hN hk,
    new_final_size_midFrame data fid N k now (by omega)]
  by_cases hlast : k + 1 = N
  · rw [if_pos (by simp only [midFrame]; omega : (midFrame data N k now).received_count + 1 = (midFrame data N k now).total_frags)]
    rw [if_pos hlast, if_pos hlast]
    have hminL : min 1400 (data.length - k * 1400) = data.length - k * 1400 := by
      omega
    have htake : data.take (k * 1400 + 1400) = data := by
      apply List.take_of_length_le
      omega
    rw [hminL, htake]
    have hfds : k * 1400 + (data.length - k * 1400) = data.length := by omega
    have hz : N * 1400 - k * 1400 - (data.length - k * 1400)
        = N * 1400 - data.length := by omega
    rw [hfds, hz]
    by_cases hfull : data.length < N * 1400
    · rw [if_pos (by
        simp only [List.length_append, List.length_replicate]
        omega)]
      rw [List.take_left' rfl]
    · rw [if_neg (by
        simp only [List.length_append, List.length_replicate]
        omega)]
      have : N * 1400 - data.length = 0 := by omega
      rw [this, List.replicate_zero, List.append_nil]
  · rw [if_neg (by simp only [midFrame]; omega : ¬ ((midFrame data N k now).received_count + 1 = (midFrame data N k now).total_frags))]
    rw [if_neg hlast, if_neg hlast]
    have hmin : min 1400 (data.length - k * 1400) = 1400 := by omega
    rw [hmin]
    simp only [midFrame]
    rw [mask_set_boundary k N hk]
    have h1 : k * 1400 + 1400 = (k + 1) * 1400 := by ring
    have h2 : N * 1400 - k * 1400 - 1400 = N * 1400 - (k + 1) * 1400 := by omega
    rw [h1, h2]

/-- One in-order `add_fragment` call against the single-entry table. -/
theorem add_fragment_midFrame (data : List Nat) (fid N k t now : Nat)
    (hN : N = max 1 ((data.length + 1399) / 1400)) (hk : k < N) :
    add_fragment [(fid, midFrame data N k t)] now ⟨fid, k, N⟩
        ((data.drop (k * 1400)).take 1400) =
      (if k + 1 = N
       then ((⟨true, data, fid⟩ : Result), ([] : PendingTable))
       else (⟨false, [], fid⟩, [(fid, midFrame data N (k + 1) now)])) := by
  have hp : ¬ STREAMPU_MAX_PAYLOAD < ((data.drop (k * 1400)).take 1400).length := by
    simp only [STREAMPU_MAX_PAYLOAD, List.length_take, List.length_drop]
    omega
  have hchk : checked_table [(fid, midFrame data N k t)] now
      = [(fid, midFrame data N k t)] := by
    rw [checked_table, if_neg (by simp [MAX_PENDING_FRAMES])]
  have hlook : lookupFrame [(fid, midFrame data N k t)] fid
      = some (midFrame data N k t) := by
    rw [lookupFrame, if_pos rfl]
  rw [add_fragment, if_neg hp, hchk,
    if_neg (fun hc => absurd hc.1 (by simp [MAX_PENDING_FRAMES]))]
  simp only [add_fragment_body, hlook]
  rw [process_midFrame data fid N k t now hN hk]
  by_cases hlast : k + 1 = N
  · rw [if_pos hlast, if_pos hlast]
    simp [eraseFrame]
  · rw [if_neg hlast, if_neg hlast]
    simp [updateFrame]

/-- Feeding fragments `k, k+1, …, N−1` in order against the entry holding
the first `k` fragments: every result is incomplete except the one for
fragment `N−1`, which completes with exactly `data`. -/
theorem run_midFrames (data : List Nat) (fid N : Nat) (τ : Nat → Nat)
    (hN : N = max 1 ((data.length + 1399) / 1400)) :
    ∀ (m k t : Nat), k + m = N →
      (run_fragments [(fid, midFrame data N k t)]
        ((List.range' k m).map (fun j =>
          (⟨τ j, ⟨fid, j, N⟩, (data.drop (j * 1400)).take 1400⟩ : TimedFragment)))).1
      = (List.range' k m).map (fun j =>
          if j = N - 1 then (⟨true, data, fid⟩ : Result) else ⟨false, [], fid⟩) := by
  intro m
  induction m with
  | zero =>
      intro k t _
      rfl
  | succ m ih =>
      intro k t hkm
      rw [List.range'_succ, List.map_cons, List.map_cons, run_fragments_cons]
      dsimp only
      rw [add_fragment_midFrame data fid N k t (τ k) hN (by omega)]
      by_cases hlast : k + 1 = N
      · have hm : m = 0 := by omega
        subst hm
        rw [if_pos hlast]
        have hk1 : k = N - 1 := by omega
        rw [if_pos hk1]
        rfl
      · rw [if_neg hlast]
        rw [if_neg (by omega : ¬ k = N - 1)]
        have := ih (k + 1) (τ k) (by omega)
        simp only [this]

theorem zipWith_map_same {α β γ δ : Type} (f : β → γ → δ) (g : α → β)
    (h : α → γ) : ∀ r : List α,
      List.zipWith f (r.map g) (r.map h) = r.map (fun x => f (g x) (h x)) := by
  intro r
  induction r with
  | nil => rfl
  | cons a r ih => simp [ih]

/-- **Round trip below the `uint16_t` threshold** (supporting theorem for
the C1 finding): for every buffer of at most `65535 · 1400` bytes — i.e.
fewer than 65536 fragments, so the `uint16_t` narrowing is lossless —
feeding `prepare_frame`'s fragments in order into a fresh reassembler, at
arbitrary clock values, returns incomplete on every fragment except the
last, which completes with exactly the original bytes and frame id. -/
theorem prepare_frame_roundtrip_below_uint16 (data : List Nat) (fid : Nat)
    (hL : data.length ≤ 65535 * 1400) :
    ∃ l, prepare_frame data fid = .ok l ∧ 0 < l.length ∧
      ∀ τ : Nat → Nat,
        (run_fragments [] (List.zipWith
            (fun t p => (⟨t, p.1, p.2⟩ : TimedFragment))
            ((List.range' 0 l.length).map τ) l)).1
          = (List.range' 0 l.length).map (fun j =>
              if j = l.length - 1 then (⟨true, data, fid⟩ : Result)
              else ⟨false, [], fid⟩) := by
  have hok := prepare_frame_eq data fid
    (by simp only [STREAMPU_MAX_FRAME_SIZE]; omega)
  simp only [STREAMPU_MAX_PAYLOAD] at hok
  have hif : (if (data.length + 1400 - 1) / 1400 = 0 then 1
      else (data.length + 1400 - 1) / 1400)
      = max 1 ((data.length + 1400 - 1) / 1400) := by
    split <;> omega
  rw [hif] at hok
  set N := max 1 ((data.length + 1400 - 1) / 1400) with hNdef
  have hN16 : N ≤ 65535 := by rw [hNdef]; omega
  have hN1 : 1 ≤ N := by rw [hNdef]; omega
  have hNceil : N = max 1 ((data.length + 1399) / 1400) := by rw [hNdef]; omega
  have hmods : (List.range' 0 N).map (fun j =>
      ((⟨fid, j % 4294967296, N % 4294967296⟩ : StreampuHeader),
        (data.drop (j * 1400)).take 1400))
      = (List.range' 0 N).map (fun j =>
      ((⟨fid, j, N⟩ : StreampuHeader), (data.drop (j * 1400)).take 1400)) := by
    apply List.map_congr_left
    intro j hj
    have hjN : j < N := by
      have := List.mem_range'_1.mp hj
      omega
    rw [Nat.mod_eq_of_lt (by omega : j < 4294967296),
      Nat.mod_eq_of_lt (by omega : N < 4294967296)]
  rw [hmods] at hok
  refine ⟨_, hok, by simp [hN1]; omega, ?_⟩
  intro τ
  have hlen : ((List.range' 0 N).map (fun j =>
      ((⟨fid, j, N⟩ : StreampuHeader), (data.drop (j * 1400)).take 1400))).length
      = N := by simp
  rw [hlen, zipWith_map_same]
  dsimp only
  obtain ⟨M, hM⟩ : ∃ M, N = M + 1 := ⟨N - 1, by omega⟩
  rw [hM, List.range'_succ, List.map_cons, List.map_cons, run_fragments_cons]
  dsimp only
  have hcreate : add_fragment [] (τ 0) ⟨fid, 0, M + 1⟩
      ((data.drop (0 * 1400)).take 1400)
      = (if 0 + 1 = M + 1
         then ((⟨true, data, fid⟩ : Result), ([] : PendingTable))
         else (⟨false, [], fid⟩, [(fid, midFrame data (M + 1) 1 (τ 0))])) := by
    have hp : ¬ STREAMPU_MAX_PAYLOAD < ((data.drop (0 * 1400)).take 1400).length := by
      simp only [STREAMPU_MAX_PAYLOAD, List.length_take, List.length_drop]
      omega
    have hchk : checked_table [] (τ 0) = [] := by
      rw [checked_table, if_neg (by simp [MAX_PENDING_FRAMES])]
    have hnone : lookupFrame ([] : PendingTable) fid = none := rfl
    rw [add_fragment, if_neg hp, hchk,
      if_neg (fun hc => absurd hc.1 (by simp [MAX_PENDING_FRAMES]))]
    simp only [add_fragment_body, hnone]
    rw [if_neg (by
      simp only [STREAMPU_MAX_FRAME_SIZE, STREAMPU_MAX_PAYLOAD]
      omega)]
    have hnf : newFrame ⟨fid, 0, M + 1⟩ (τ 0) = midFrame data (M + 1) 0 (τ 0) := by
      simp [newFrame, midFrame, STREAMPU_MAX_PAYLOAD,
        Nat.mod_eq_of_lt (by omega : M + 1 < 65536)]
    rw [hnf]
    rw [process_midFrame data fid (M + 1) 0 (τ 0) (τ 0) (by omega) (by omega)]
    by_cases h1 : 0 + 1 = M + 1
    · rw [if_pos h1, if_pos h1]
      simp [insertFrame, eraseFrame]
    · rw [if_neg h1, if_neg h1]
      simp [insertFrame, updateFrame]
  rw [hcreate]
  by_cases hM0 : M = 0
  · subst hM0
    rw [if_pos rfl, if_pos (by omega : 0 = 1 - 1)]
    rfl
  · rw [if_neg (by omega), if_neg (by omega : ¬ 0 = M + 1 - 1)]
    have hrun := run_midFrames data fid (M + 1) τ (by omega) M 1 (τ 0) (by omega)
    simp only [hrun]

end NetworkStreampu
